import Mathlib

/-!
Shallow embedding of the collaborative-canvas server and client core:

* `src/server/drawing-state.js` — the per-room operation log (`DrawingState`)
  with its undo/redo state machine;
* `src/server/rooms.js` — the session registry (`RoomManager`);
* the socket event handlers of the server entry file (`drawing-event`,
  `undo-request`, `redo-request`, `admin-undo`, `admin-redo`, `clear-canvas`,
  `admin-clear-all`, `admin-transfer`, `disconnect`);
* the client reconciler `CanvasManager.addOperation` in `src/client/canvas.js`,
  restricted to its effect on the local `operations` history.

JavaScript objects are embedded as Lean structures, in-place mutation as
explicit state passing, `Map` (which iterates in insertion order) as an
association list, and thrown-and-caught exceptions as `Except`.
-/

/-- The type-specific payload `operation.data`.  Only the fields the server
and the client reconciler actually read are carried; absent fields default the
way JavaScript truthiness reads them (`undefined` is falsy).  A `tempId` or
`operationId` of `none` models the field being absent/falsy. -/
structure OpData where
  isComplete : Bool := false
  tempId : Option String := none
  operationId : Option String := none
  tool : String := ""
  x : Int := 0
  y : Int := 0
  width : Int := 0
  height : Int := 0
deriving DecidableEq, Repr

/-- A committed drawing operation as built by the `drawing-event` handler:
`{ id, type, userId, userName, userColor, timestamp, data }`, plus the
`undone` flag that `DrawingState.addOperation` attaches. -/
structure Operation where
  id : String
  type : String
  userId : String
  userName : String := ""
  userColor : String := ""
  timestamp : Nat := 0
  data : OpData := {}
  undone : Bool := false
deriving DecidableEq, Repr

/-- `DrawingState` from drawing-state.js: `operations`, the append cursor
`currentIndex` (initialised to `-1`), and `referenceSize`. -/
structure DrawingState where
  roomId : String := ""
  operations : List Operation := []
  currentIndex : Int := -1
  referenceSize : Option (Nat × Nat) := none
deriving DecidableEq, Repr

/-- JavaScript `list.slice(0, e)`: a nonnegative end index takes a prefix
(clamped to the length), a negative end index counts from the end of the
array, clamped at zero. -/
def jsSliceEnd (l : List α) (e : Int) : List α :=
  if e < 0 then l.take (l.length + e).toNat else l.take e.toNat

/-- `addOperation(operation)`: slice the history to `currentIndex + 1`, push
a copy of the operation with `undone: false`, advance `currentIndex`, and
return the argument. -/
def DrawingState.addOperation (s : DrawingState) (operation : Operation) :
    DrawingState × Operation :=
  ({ s with
      operations :=
        jsSliceEnd s.operations (s.currentIndex + 1) ++
          [{ operation with undone := false }],
      currentIndex := s.currentIndex + 1 },
    operation)

/-- The loop of `undo(userId)`: `for (let i = length - 1; i >= 0; i--)`,
flip the first operation found (scanning from the end) with this `userId`
and `undone` false.  Trying the tail before the head is exactly
"last matching index wins".  Returns the updated list and the flipped
operation, or `none` when the loop falls through. -/
def undoScan (userId : String) : List Operation → Option (List Operation × Operation)
  | [] => none
  | op :: rest =>
    match undoScan userId rest with
    | some (rest2, r) => some (op :: rest2, r)
    | none =>
      if op.userId = userId ∧ op.undone = false then
        some ({ op with undone := true } :: rest, { op with undone := true })
      else
        none

/-- `undo(userId)`: mark the last non-undone operation by this user as
undone and return it; return `null` (here `none`) when there is none. -/
def DrawingState.undo (s : DrawingState) (userId : String) :
    DrawingState × Option Operation :=
  match undoScan userId s.operations with
  | some (ops2, r) => ({ s with operations := ops2 }, some r)
  | none => (s, none)

/-- The loop of `redo(userId)`: `for (let i = 0; i < length; i++)`, flip the
first (oldest) undone operation by this user back to `undone: false`. -/
def redoScan (userId : String) : List Operation → Option (List Operation × Operation)
  | [] => none
  | op :: rest =>
    if op.userId = userId ∧ op.undone = true then
      some ({ op with undone := false } :: rest, { op with undone := false })
    else
      match redoScan userId rest with
      | some (rest2, r) => some (op :: rest2, r)
      | none => none

/-- `redo(userId)`: un-flag the oldest undone operation by this user. -/
def DrawingState.redo (s : DrawingState) (userId : String) :
    DrawingState × Option Operation :=
  match redoScan userId s.operations with
  | some (ops2, r) => ({ s with operations := ops2 }, some r)
  | none => (s, none)

/-- The loop of `globalUndo()`: scan from the end, flip the first non-undone
operation regardless of user. -/
def globalUndoScan : List Operation → Option (List Operation × Operation)
  | [] => none
  | op :: rest =>
    match globalUndoScan rest with
    | some (rest2, r) => some (op :: rest2, r)
    | none =>
      if op.undone = false then
        some ({ op with undone := true } :: rest, { op with undone := true })
      else
        none

/-- `globalUndo()`: undo the very last active operation regardless of user. -/
def DrawingState.globalUndo (s : DrawingState) : DrawingState × Option Operation :=
  match globalUndoScan s.operations with
  | some (ops2, r) => ({ s with operations := ops2 }, some r)
  | none => (s, none)

/-- The loop of `globalRedo()`: scan from the start, flip the first undone
operation regardless of user. -/
def globalRedoScan : List Operation → Option (List Operation × Operation)
  | [] => none
  | op :: rest =>
    if op.undone = true then
      some ({ op with undone := false } :: rest, { op with undone := false })
    else
      match globalRedoScan rest with
      | some (rest2, r) => some (op :: rest2, r)
      | none => none

/-- `globalRedo()`: redo the oldest undone operation regardless of user. -/
def DrawingState.globalRedo (s : DrawingState) : DrawingState × Option Operation :=
  match globalRedoScan s.operations with
  | some (ops2, r) => ({ s with operations := ops2 }, some r)
  | none => (s, none)

/-- `getActiveOperations()`: `operations.slice(0, currentIndex + 1)` filtered
to the non-undone entries. -/
def DrawingState.getActiveOperations (s : DrawingState) : List Operation :=
  (jsSliceEnd s.operations (s.currentIndex + 1)).filter (fun op => op.undone = false)

/-- The record returned by `getOperationHistory()` for new users. -/
structure OperationHistory where
  operations : List Operation
  currentIndex : Int
  referenceSize : Option (Nat × Nat)
deriving DecidableEq, Repr

/-- `getOperationHistory()`: the complete history sent to a newly joined
client. -/
def DrawingState.getOperationHistory (s : DrawingState) : OperationHistory :=
  { operations := s.operations
    currentIndex := s.currentIndex
    referenceSize := s.referenceSize }

/-- `clear()`: drop every operation and reset the cursor to `-1`. -/
def DrawingState.clear (s : DrawingState) : DrawingState :=
  { s with operations := [], currentIndex := -1 }

/-- A user record as built by `RoomManager.addUser` in rooms.js. -/
structure User where
  id : String
  name : String
  color : String
  socketId : String
  isAdmin : Bool
  joinedAt : Nat
deriving DecidableEq, Repr

/-- `operations.find(op => op.id === targetId)` followed by an in-place
mutation of the found object: rewrite the first entry with this id, leave
everything else (and the order) alone. -/
def updateFirstById (targetId : String) (f : Operation → Operation) :
    List Operation → List Operation
  | [] => []
  | op :: rest =>
    if op.id = targetId then f op :: rest
    else op :: updateFirstById targetId f rest

/-- The commit rule of the `drawing-event` handler:
`data.type === 'draw' || data.type === 'shape' || data.type === 'text' ||
data.type === 'image' || data.data.isComplete`. -/
def commitCond (evType : String) (evData : OpData) : Prop :=
  evType = "draw" ∨ evType = "shape" ∨ evType = "text" ∨ evType = "image" ∨
    evData.isComplete = true

instance (evType : String) (evData : OpData) : Decidable (commitCond evType evData) := by
  unfold commitCond; infer_instance

/-- The operation record the `drawing-event` handler builds:
`{ id: uuidv4(), type, userId, userName, userColor, timestamp: Date.now(),
data }` with `freshId` for the uuid and `now` for the clock read. -/
def eventOperation (user : User) (freshId : String) (now : Nat)
    (evType : String) (evData : OpData) : Operation :=
  { id := freshId, type := evType, userId := user.id, userName := user.name,
    userColor := user.color, timestamp := now, data := evData }

/-- The handler's `move` statement: when the event is a `move` carrying a
(truthy) `operationId`, overwrite `x`/`y` of the existing entry found by id. -/
def moveStep (evType : String) (evData : OpData) (s1 : DrawingState) : DrawingState :=
  if evType = "move" then
    match evData.operationId with
    | some tid =>
      { s1 with
          operations := updateFirstById tid
            (fun op => { op with data := { op.data with x := evData.x, y := evData.y } })
            s1.operations }
    | none => s1
  else s1

/-- The handler's `resize` statement: when the event is a `resize` carrying a
(truthy) `operationId`, overwrite `width`/`height` of the entry found by id. -/
def resizeStep (evType : String) (evData : OpData) (s2 : DrawingState) : DrawingState :=
  if evType = "resize" then
    match evData.operationId with
    | some tid =>
      { s2 with
          operations := updateFirstById tid
            (fun op =>
              { op with data := { op.data with width := evData.width, height := evData.height } })
            s2.operations }
    | none => s2
  else s2

/-- The `drawing-event` handler's effect on the room's `DrawingState`
(the broadcast itself does not touch the log): append the built operation to
history only under `commitCond`, then run the `move` and the `resize`
statement in order. -/
def handleDrawingEvent (s : DrawingState) (user : User) (freshId : String)
    (now : Nat) (evType : String) (evData : OpData) : DrawingState :=
  resizeStep evType evData
    (moveStep evType evData
      (if commitCond evType evData then
        (s.addOperation (eventOperation user freshId now evType evData)).1
       else s))

/-- The `clear-canvas` handler (the "clear my drawing" action): mark every
operation by the acting user as undone, leaving everything else alone. -/
def clearByUser (s : DrawingState) (userId : String) : DrawingState :=
  { s with
      operations := s.operations.map
        (fun op => if op.userId = userId then { op with undone := true } else op) }

/-- The states a room's `DrawingState` can reach through the server's socket
handlers, starting from `new DrawingState(roomId)`.  `undo-request`,
`redo-request`, `admin-undo`, `admin-redo`, `clear-canvas` and
`admin-clear-all` call the corresponding `DrawingState` methods; the
`drawing-event` handler is `handleDrawingEvent`.  These are the only server
code paths that mutate a room's log. -/
inductive EventReachable : DrawingState → Prop
  | init (roomId : String) : EventReachable { roomId := roomId }
  | drawingEvent {s} (user : User) (freshId : String) (now : Nat)
      (evType : String) (evData : OpData) :
      EventReachable s → EventReachable (handleDrawingEvent s user freshId now evType evData)
  | undoRequest {s} (userId : String) :
      EventReachable s → EventReachable (s.undo userId).1
  | redoRequest {s} (userId : String) :
      EventReachable s → EventReachable (s.redo userId).1
  | adminUndo {s} : EventReachable s → EventReachable s.globalUndo.1
  | adminRedo {s} : EventReachable s → EventReachable s.globalRedo.1
  | clearCanvas {s} (userId : String) :
      EventReachable s → EventReachable (clearByUser s userId)
  | adminClearAll {s} : EventReachable s → EventReachable s.clear

/-- The states a `DrawingState` can reach through any sequence of direct
`addOperation`, `undo`, `redo`, `globalUndo`, `globalRedo` and `clear`
method calls, starting from the constructor's state. -/
inductive DSReachable : DrawingState → Prop
  | init (roomId : String) : DSReachable { roomId := roomId }
  | addOperation {s} (op : Operation) :
      DSReachable s → DSReachable (s.addOperation op).1
  | undo {s} (userId : String) : DSReachable s → DSReachable (s.undo userId).1
  | redo {s} (userId : String) : DSReachable s → DSReachable (s.redo userId).1
  | globalUndo {s} : DSReachable s → DSReachable s.globalUndo.1
  | globalRedo {s} : DSReachable s → DSReachable s.globalRedo.1
  | clear {s} : DSReachable s → DSReachable s.clear

/-! ## Session registry (`src/server/rooms.js`)

A JavaScript `Map` iterates in insertion order; `set` of an existing key
updates the entry in place, `set` of a new key appends, `delete` removes the
entry.  It is embedded as an association list with exactly those semantics. -/

/-- `Map.get`: the value stored under the first occurrence of the key. -/
def mapGet (m : List (String × β)) (k : String) : Option β :=
  (m.find? (fun p => p.1 = k)).map Prod.snd

/-- `Map.set`: overwrite in place when the key is present, append otherwise. -/
def mapSet (k : String) (v : β) : List (String × β) → List (String × β)
  | [] => [(k, v)]
  | (k0, v0) :: rest =>
    if k0 = k then (k, v) :: rest else (k0, v0) :: mapSet k v rest

/-- `Map.delete`: remove the (first) entry stored under the key. -/
def mapDelete (k : String) : List (String × β) → List (String × β)
  | [] => []
  | (k0, v0) :: rest =>
    if k0 = k then rest else (k0, v0) :: mapDelete k rest

/-- `Array.from(map.values())`: the values in insertion order. -/
def mapValues (m : List (String × β)) : List β :=
  m.map Prod.snd

/-- A room as created by `RoomManager.getRoom`. -/
structure Room where
  id : String
  users : List (String × User)
  drawingState : DrawingState
  adminId : Option String
  createdAt : Nat
deriving DecidableEq, Repr

/-- The singleton `RoomManager`: `roomId -> Room`. -/
structure RoomManager where
  rooms : List (String × Room)
deriving DecidableEq, Repr

/-- `getRoom(roomId)`: return the stored room, lazily creating (and
registering) a fresh one when the id is absent.  `now` stands for the
`Date.now()` read for `createdAt`. -/
def RoomManager.getRoom (m : RoomManager) (roomId : String) (now : Nat) :
    RoomManager × Room :=
  match mapGet m.rooms roomId with
  | some room => (m, room)
  | none =>
    let room : Room :=
      { id := roomId, users := [], drawingState := { roomId := roomId },
        adminId := none, createdAt := now }
    ({ rooms := mapSet roomId room m.rooms }, room)

/-- The fixed ten-color palette of `assignColor`. -/
def colorPalette : List String :=
  ["#FF6B6B", "#4ECDC4", "#45B7D1", "#FFA07A", "#98D8C8",
   "#F7DC6F", "#BB8FCE", "#85C1E2", "#F8B739", "#52B788"]

/-- `assignColor(room)`: the first palette color no current user holds;
when the palette is exhausted, a random palette entry — the random draw
`Math.floor(Math.random() * length)` is taken as the `randIdx` parameter. -/
def RoomManager.assignColor (room : Room) (randIdx : Nat) : String :=
  let usedColors := (mapValues room.users).map User.color
  match colorPalette.find? (fun c => ¬ usedColors.contains c) with
  | some c => c
  | none => colorPalette.getD (randIdx % colorPalette.length) ""

/-- `addUser(roomId, userId, userName, socketId)`: get-or-create the room,
grant admin when the room is empty, assign a color, and store the new user.
`now` stands for `Date.now()` (the `joinedAt` stamp), `randIdx` for the
palette fallback draw. -/
def RoomManager.addUser (m : RoomManager) (roomId userId userName socketId : String)
    (now randIdx : Nat) : RoomManager × User :=
  let (m1, room) := m.getRoom roomId now
  let isAdmin := room.users.length = 0
  let room1 := if isAdmin then { room with adminId := some userId } else room
  let color := RoomManager.assignColor room1 randIdx
  let user : User :=
    { id := userId, name := userName, color := color, socketId := socketId,
      isAdmin := isAdmin, joinedAt := now }
  let room2 := { room1 with users := mapSet userId user room1.users }
  ({ rooms := mapSet roomId room2 m1.rooms }, user)

/-- `removeUser(roomId, userId)`: delete the user; if the departing user was
admin and users remain, promote `Array.from(room.users.values())[0]` — the
first remaining entry in the map's insertion order; delete the whole room
when it became empty. -/
def RoomManager.removeUser (m : RoomManager) (roomId userId : String) :
    RoomManager × Option User :=
  match mapGet m.rooms roomId with
  | none => (m, none)
  | some room =>
    let user := mapGet room.users userId
    let users1 := mapDelete userId room.users
    let room1 := { room with users := users1 }
    let room2 :=
      if room1.adminId = some userId then
        match users1 with
        | [] => room1
        | (_, newAdmin) :: _ =>
          { room1 with
              adminId := some newAdmin.id,
              users := mapSet newAdmin.id { newAdmin with isAdmin := true } users1 }
      else room1
    if room2.users.length = 0 then
      ({ rooms := mapDelete roomId m.rooms }, user)
    else
      ({ rooms := mapSet roomId room2 m.rooms }, user)

/-- `getRoomUsers(roomId)`: every user of the room in insertion order, `[]`
for an unknown room. -/
def RoomManager.getRoomUsers (m : RoomManager) (roomId : String) : List User :=
  match mapGet m.rooms roomId with
  | none => []
  | some room => mapValues room.users

/-- The `RoomManager` class in rooms.js defines `getRoom`, `addUser`,
`removeUser`, `getRoomUsers`, `getUserBySocketId`, `assignColor`,
`getDrawingState` and `getRoomStats` — and no `setAdmin`.  In JavaScript,
`roomManager.setAdmin` therefore evaluates to `undefined`, and calling it
throws a `TypeError`; the embedding makes every call fail. -/
def RoomManager.setAdmin (_m : RoomManager) (_roomId _newAdminId : String) :
    Except String (RoomManager × User) :=
  Except.error "TypeError: roomManager.setAdmin is not a function"

/-- The `admin-transfer` handler: reject non-admin requesters with an error
event (returned as `some message`); otherwise call `roomManager.setAdmin`,
whose thrown `TypeError` is swallowed by the handler's `try/catch`, leaving
the registry untouched.  The `result` branch only emits notifications. -/
def handleAdminTransfer (m : RoomManager) (currentRoom : String)
    (currentUser : User) (targetUserId : String) : RoomManager × Option String :=
  if currentUser.isAdmin = false then
    (m, some "Only admin can transfer rights")
  else
    match m.setAdmin currentRoom targetUserId with
    | Except.ok (m1, _newAdmin) => (m1, none)
    | Except.error _ => (m, none)

/-- The `disconnect` handler's effect on the registry, for a socket that had
joined (`currentUser`/`currentRoom` set): `removeUser`, then — to look up a
possibly promoted admin — `const room = roomManager.getRoom(currentRoom)`,
which lazily re-creates the room when `removeUser` just deleted it.  The
remaining statements only broadcast. -/
def handleDisconnect (m : RoomManager) (currentRoom : String)
    (currentUser : User) (now : Nat) : RoomManager :=
  let m1 := (m.removeUser currentRoom currentUser.id).1
  let (m2, _room) := m1.getRoom currentRoom now
  m2

/-! ## Client reconciler (`CanvasManager.addOperation`, src/client/canvas.js)

Only the effect on the local `this.operations` history is embedded; the
branches that touch `activeStrokes`, the remote preview maps or the canvas
context leave `operations` unchanged and are mapped to the identity. -/

/-- The final section of `CanvasManager.addOperation` ("Handle Completed
Operations"): first the `tempId` reconciliation (replace the pending
placeholder found by `findIndex` in place), then the deduplication check by
server id, then the push. -/
def clientCompleted (ops : List Operation) (operation : Operation) : List Operation :=
  let dedupPush :=
    if ops.any (fun op => op.id = operation.id) then ops else ops ++ [operation]
  match operation.data.tempId with
  | some t =>
    match ops.findIdx? (fun op => op.id = t) with
    | some i => ops.set i operation
    | none => dedupPush
  | none => dedupPush

/-- `CanvasManager.addOperation(operation)` restricted to its effect on
`this.operations`: `clear` empties the history; the three `*-preview` kinds
and `draw-incremental` never touch it; `move`/`resize` with an `operationId`
mutate the matching entry's position/size fields in place and return; every
other kind reaches the completed-operation reconciliation. -/
def clientAddOperation (ops : List Operation) (operation : Operation) :
    List Operation :=
  if operation.type = "clear" then []
  else if operation.type = "shape-preview" ∨ operation.type = "text-preview" ∨
      operation.type = "move-preview" then ops
  else
    match operation.type == "move", operation.type == "resize",
        operation.data.operationId with
    | true, _, some tid =>
      updateFirstById tid
        (fun op =>
          { op with data := { op.data with x := operation.data.x, y := operation.data.y } })
        ops
    | _, true, some tid =>
      updateFirstById tid
        (fun op =>
          { op with
              data := { op.data with
                width := operation.data.width, height := operation.data.height } })
        ops
    | _, _, _ =>
      if operation.type = "draw-incremental" then ops
      else clientCompleted ops operation

/-! ## Characterisation of the four scan loops -/

theorem undoScan_eq_none_iff (u : String) (l : List Operation) :
    undoScan u l = none ↔ ∀ op ∈ l, ¬(op.userId = u ∧ op.undone = false) := by
  induction l with
  | nil => simp [undoScan]
  | cons op rest ih =>
    rw [undoScan]
    cases h : undoScan u rest with
    | some p =>
      rcases p with ⟨rest2, r⟩
      simp only []
      constructor
      · intro hc; exact absurd hc (by simp)
      · intro hall
        have h2 : ∀ op2 ∈ rest, ¬(op2.userId = u ∧ op2.undone = false) := by
          intro op2 hm; exact hall op2 (List.mem_cons_of_mem _ hm)
        rw [ih.mpr h2] at h
        exact absurd h (by simp)
    | none =>
      have hrest := ih.mp h
      by_cases hc : op.userId = u ∧ op.undone = false
      · simp only [if_pos hc]
        constructor
        · intro hf; exact absurd hf (by simp)
        · intro hall; exact absurd hc (hall op (List.mem_cons_self op rest))
      · simp only [if_neg hc]
        constructor
        · intro _ op2 hm
          rcases List.mem_cons.mp hm with h1 | h2
          · subst h1; exact hc
          · exact hrest op2 h2
        · intro _; trivial

theorem undoScan_some_split (u : String) (l l2 : List Operation) (r : Operation)
    (h : undoScan u l = some (l2, r)) :
    ∃ l1 op l3, l = l1 ++ op :: l3 ∧ op.userId = u ∧ op.undone = false ∧
      (∀ op2 ∈ l3, ¬(op2.userId = u ∧ op2.undone = false)) ∧
      r = { op with undone := true } ∧ l2 = l1 ++ r :: l3 := by
  induction l generalizing l2 r with
  | nil => simp [undoScan] at h
  | cons op0 rest ih =>
    rw [undoScan] at h
    cases hrest : undoScan u rest with
    | some p =>
      rcases p with ⟨rest2, r0⟩
      rw [hrest] at h
      simp only [Option.some.injEq, Prod.mk.injEq] at h
      obtain ⟨hl2, hr⟩ := h
      obtain ⟨l1, op, l3, he, hu, hd, hafter, hre, hrest2⟩ := ih rest2 r0 hrest
      subst hr
      exact ⟨op0 :: l1, op, l3, by simp [he], hu, hd, hafter, hre,
        by simp [← hl2, hrest2]⟩
    | none =>
      rw [hrest] at h
      by_cases hc : op0.userId = u ∧ op0.undone = false
      · rw [if_pos hc] at h
        simp only [Option.some.injEq, Prod.mk.injEq] at h
        obtain ⟨hl2, hr⟩ := h
        exact ⟨[], op0, rest, by simp, hc.1, hc.2,
          (undoScan_eq_none_iff u rest).mp hrest, hr.symm, by simp [← hl2, ← hr]⟩
      · rw [if_neg hc] at h; exact Option.noConfusion h

theorem redoScan_eq_none_iff (u : String) (l : List Operation) :
    redoScan u l = none ↔ ∀ op ∈ l, ¬(op.userId = u ∧ op.undone = true) := by
  induction l with
  | nil => simp [redoScan]
  | cons op rest ih =>
    rw [redoScan]
    by_cases hc : op.userId = u ∧ op.undone = true
    · simp only [if_pos hc]
      constructor
      · intro hf; exact absurd hf (by simp)
      · intro hall; exact absurd hc (hall op (List.mem_cons_self op rest))
    · simp only [if_neg hc]
      cases h : redoScan u rest with
      | some p =>
        rcases p with ⟨rest2, r⟩
        simp only []
        constructor
        · intro hf; exact absurd hf (by simp)
        · intro hall
          have h2 : ∀ op2 ∈ rest, ¬(op2.userId = u ∧ op2.undone = true) := by
            intro op2 hm; exact hall op2 (List.mem_cons_of_mem _ hm)
          rw [ih.mpr h2] at h
          exact absurd h (by simp)
      | none =>
        have hrest := ih.mp h
        constructor
        · intro _ op2 hm
          rcases List.mem_cons.mp hm with h1 | h2
          · subst h1; exact hc
          · exact hrest op2 h2
        · intro _; trivial

theorem redoScan_some_split (u : String) (l l2 : List Operation) (r : Operation)
    (h : redoScan u l = some (l2, r)) :
    ∃ l1 op l3, l = l1 ++ op :: l3 ∧ op.userId = u ∧ op.undone = true ∧
      (∀ op2 ∈ l1, ¬(op2.userId = u ∧ op2.undone = true)) ∧
      r = { op with undone := false } ∧ l2 = l1 ++ r :: l3 := by
  induction l generalizing l2 r with
  | nil => simp [redoScan] at h
  | cons op0 rest ih =>
    rw [redoScan] at h
    by_cases hc : op0.userId = u ∧ op0.undone = true
    · rw [if_pos hc] at h
      simp only [Option.some.injEq, Prod.mk.injEq] at h
      obtain ⟨hl2, hr⟩ := h
      exact ⟨[], op0, rest, by simp, hc.1, hc.2, by simp, hr.symm,
        by simp [← hl2, ← hr]⟩
    · rw [if_neg hc] at h
      cases hrest : redoScan u rest with
      | some p =>
        rcases p with ⟨rest2, r0⟩
        rw [hrest] at h
        simp only [Option.some.injEq, Prod.mk.injEq] at h
        obtain ⟨hl2, hr⟩ := h
        obtain ⟨l1, op, l3, he, hu, hd, hbefore, hre, hrest2⟩ := ih rest2 r0 hrest
        subst hr
        refine ⟨op0 :: l1, op, l3, by simp [he], hu, hd, ?_, hre,
          by simp [← hl2, hrest2]⟩
        intro op2 hm
        rcases List.mem_cons.mp hm with h1 | h2
        · subst h1; exact hc
        · exact hbefore op2 h2
      | none => rw [hrest] at h; exact Option.noConfusion h

theorem globalUndoScan_eq_none_iff (l : List Operation) :
    globalUndoScan l = none ↔ ∀ op ∈ l, op.undone = true := by
  induction l with
  | nil => simp [globalUndoScan]
  | cons op rest ih =>
    rw [globalUndoScan]
    cases h : globalUndoScan rest with
    | some p =>
      rcases p with ⟨rest2, r⟩
      simp only []
      constructor
      · intro hf; exact absurd hf (by simp)
      · intro hall
        have h2 : ∀ op2 ∈ rest, op2.undone = true := by
          intro op2 hm; exact hall op2 (List.mem_cons_of_mem _ hm)
        rw [ih.mpr h2] at h
        exact absurd h (by simp)
    | none =>
      have hrest := ih.mp h
      by_cases hc : op.undone = false
      · simp only [if_pos hc]
        constructor
        · intro hf; exact absurd hf (by simp)
        · intro hall
          have := hall op (List.mem_cons_self op rest)
          rw [this] at hc; exact absurd hc (by simp)
      · simp only [if_neg hc]
        constructor
        · intro _ op2 hm
          rcases List.mem_cons.mp hm with h1 | h2
          · subst h1; exact eq_true_of_ne_false hc
          · exact hrest op2 h2
        · intro _; trivial

theorem globalUndoScan_some_split (l l2 : List Operation) (r : Operation)
    (h : globalUndoScan l = some (l2, r)) :
    ∃ l1 op l3, l = l1 ++ op :: l3 ∧ op.undone = false ∧
      (∀ op2 ∈ l3, op2.undone = true) ∧
      r = { op with undone := true } ∧ l2 = l1 ++ r :: l3 := by
  induction l generalizing l2 r with
  | nil => simp [globalUndoScan] at h
  | cons op0 rest ih =>
    rw [globalUndoScan] at h
    cases hrest : globalUndoScan rest with
    | some p =>
      rcases p with ⟨rest2, r0⟩
      rw [hrest] at h
      simp only [Option.some.injEq, Prod.mk.injEq] at h
      obtain ⟨hl2, hr⟩ := h
      obtain ⟨l1, op, l3, he, hd, hafter, hre, hrest2⟩ := ih rest2 r0 hrest
      subst hr
      exact ⟨op0 :: l1, op, l3, by simp [he], hd, hafter, hre,
        by simp [← hl2, hrest2]⟩
    | none =>
      rw [hrest] at h
      by_cases hc : op0.undone = false
      · rw [if_pos hc] at h
        simp only [Option.some.injEq, Prod.mk.injEq] at h
        obtain ⟨hl2, hr⟩ := h
        exact ⟨[], op0, rest, by simp, hc,
          (globalUndoScan_eq_none_iff rest).mp hrest, hr.symm,
          by simp [← hl2, ← hr]⟩
      · rw [if_neg hc] at h; exact Option.noConfusion h

theorem globalRedoScan_eq_none_iff (l : List Operation) :
    globalRedoScan l = none ↔ ∀ op ∈ l, op.undone = false := by
  induction l with
  | nil => simp [globalRedoScan]
  | cons op rest ih =>
    rw [globalRedoScan]
    by_cases hc : op.undone = true
    · simp only [if_pos hc]
      constructor
      · intro hf; exact absurd hf (by simp)
      · intro hall
        have := hall op (List.mem_cons_self op rest)
        rw [this] at hc; exact absurd hc (by simp)
    · simp only [if_neg hc]
      cases h : globalRedoScan rest with
      | some p =>
        rcases p with ⟨rest2, r⟩
        simp only []
        constructor
        · intro hf; exact absurd hf (by simp)
        · intro hall
          have h2 : ∀ op2 ∈ rest, op2.undone = false := by
            intro op2 hm; exact hall op2 (List.mem_cons_of_mem _ hm)
          rw [ih.mpr h2] at h
          exact absurd h (by simp)
      | none =>
        have hrest := ih.mp h
        constructor
        · intro _ op2 hm
          rcases List.mem_cons.mp hm with h1 | h2
          · subst h1; exact eq_false_of_ne_true hc
          · exact hrest op2 h2
        · intro _; trivial

theorem globalRedoScan_some_split (l l2 : List Operation) (r : Operation)
    (h : globalRedoScan l = some (l2, r)) :
    ∃ l1 op l3, l = l1 ++ op :: l3 ∧ op.undone = true ∧
      (∀ op2 ∈ l1, op2.undone = false) ∧
      r = { op with undone := false } ∧ l2 = l1 ++ r :: l3 := by
  induction l generalizing l2 r with
  | nil => simp [globalRedoScan] at h
  | cons op0 rest ih =>
    rw [globalRedoScan] at h
    by_cases hc : op0.undone = true
    · rw [if_pos hc] at h
      simp only [Option.some.injEq, Prod.mk.injEq] at h
      obtain ⟨hl2, hr⟩ := h
      exact ⟨[], op0, rest, by simp, hc, by simp, hr.symm,
        by simp [← hl2, ← hr]⟩
    · rw [if_neg hc] at h
      cases hrest : globalRedoScan rest with
      | some p =>
        rcases p with ⟨rest2, r0⟩
        rw [hrest] at h
        simp only [Option.some.injEq, Prod.mk.injEq] at h
        obtain ⟨hl2, hr⟩ := h
        obtain ⟨l1, op, l3, he, hd, hbefore, hre, hrest2⟩ := ih rest2 r0 hrest
        subst hr
        refine ⟨op0 :: l1, op, l3, by simp [he], hd, ?_, hre,
          by simp [← hl2, hrest2]⟩
        intro op2 hm
        rcases List.mem_cons.mp hm with h1 | h2
        · subst h1; exact eq_false_of_ne_true hc
        · exact hbefore op2 h2
      | none => rw [hrest] at h; exact Option.noConfusion h

/-! ## Concrete fixtures -/

/-- Fixture: operation A by user `u`. -/
def fixA : Operation := { id := "A", type := "draw", userId := "u" }

/-- Fixture: operation B by user `u`. -/
def fixB : Operation := { id := "B", type := "draw", userId := "u" }

/-- Fixture: operation C by user `u`. -/
def fixC : Operation := { id := "C", type := "draw", userId := "u" }

/-- Fixture: a room state holding A, B, C committed in that order by `u`. -/
def fixS3 : DrawingState :=
  ((((({ roomId := "R" } : DrawingState).addOperation fixA).1.addOperation
    fixB).1.addOperation fixC).1)

/-- Fixture: operation A committed by user X. -/
def fixAX : Operation := { id := "A", type := "draw", userId := "X" }

/-- Fixture: operation B committed by user Y. -/
def fixBY : Operation := { id := "B", type := "draw", userId := "Y" }

/-- Fixture: X commits A, then Y commits B. -/
def fixSXY : DrawingState :=
  (((({ roomId := "R" } : DrawingState).addOperation fixAX).1.addOperation
    fixBY).1)

/-! ## The claims -/

/-- **C1.** `undoByUser(userId)` scans the log from the last entry toward the
first, flips the first entry encountered whose author is `userId` and whose
`undone` flag is false to `undone = true` (so no later entry qualifies), and
returns that entry; if no such entry exists it returns null and the log is
unchanged; every other entry — in particular every entry by another user —
is kept verbatim and in order. -/
theorem undoByUser_scans_from_end (s : DrawingState) (u : String) :
    ((s.undo u).2 = none →
      (s.undo u).1 = s ∧ ∀ op ∈ s.operations, ¬(op.userId = u ∧ op.undone = false)) ∧
    (∀ r, (s.undo u).2 = some r →
      ∃ l1 op l3, s.operations = l1 ++ op :: l3 ∧
        op.userId = u ∧ op.undone = false ∧
        (∀ op2 ∈ l3, ¬(op2.userId = u ∧ op2.undone = false)) ∧
        r = { op with undone := true } ∧
        (s.undo u).1 = { s with operations := l1 ++ r :: l3 }) := by
  cases h : undoScan u s.operations with
  | none =>
    refine ⟨fun _ => ⟨?_, (undoScan_eq_none_iff u s.operations).mp h⟩, ?_⟩
    · simp [DrawingState.undo, h]
    · intro r hr
      simp [DrawingState.undo, h] at hr
  | some p =>
    rcases p with ⟨ops2, r0⟩
    constructor
    · intro hnone
      simp [DrawingState.undo, h] at hnone
    · intro r hr
      simp only [DrawingState.undo, h, Option.some.injEq] at hr
      obtain ⟨l1, op, l3, he, hu, hd, hafter, hre, hops2⟩ :=
        undoScan_some_split u s.operations ops2 r0 h
      subst hr
      exact ⟨l1, op, l3, he, hu, hd, hafter, hre,
        by simp [DrawingState.undo, h, hops2]⟩

/-- Witness for C1 at the three-operation fixture: undoing for `u` splits the
log around its last active entry C. -/
theorem undoByUser_scans_from_end_witness :
    ∃ l1 op l3, fixS3.operations = l1 ++ op :: l3 ∧
      op.userId = "u" ∧ op.undone = false ∧
      (∀ op2 ∈ l3, ¬(op2.userId = "u" ∧ op2.undone = false)) ∧
      ({ fixC with undone := true } : Operation) = { op with undone := true } ∧
      (fixS3.undo "u").1 =
        { fixS3 with operations := l1 ++ { fixC with undone := true } :: l3 } :=
  (undoByUser_scans_from_end fixS3 "u").2 { fixC with undone := true } (by decide)

/-- **C2.** `redoByUser(userId)` flips the **oldest** undone entry authored by
`userId` back to `undone = false` (no earlier entry of the log qualifies) —
not the most recently undone one; on the three-operation fixture A, B, C by
user `u`: the first undo flags C, the second undo flags B, and the following
redo restores B, not C — undo followed by redo is not an inverse pair. -/
theorem redoByUser_restores_oldest :
    (∀ (s : DrawingState) (u : String) (r : Operation), (s.redo u).2 = some r →
      ∃ l1 op l3, s.operations = l1 ++ op :: l3 ∧
        op.userId = u ∧ op.undone = true ∧
        (∀ op2 ∈ l1, ¬(op2.userId = u ∧ op2.undone = true)) ∧
        r = { op with undone := false } ∧
        (s.redo u).1 = { s with operations := l1 ++ r :: l3 }) ∧
    (fixS3.undo "u").2 = some { fixC with undone := true } ∧
    ((fixS3.undo "u").1.undo "u").2 = some { fixB with undone := true } ∧
    (((fixS3.undo "u").1.undo "u").1.redo "u").2 = some fixB ∧
    (((fixS3.undo "u").1.undo "u").1.redo "u").2 ≠
      some { fixC with undone := false } := by
  refine ⟨?_, by decide, by decide, by decide, by decide⟩
  intro s u r hr
  cases h : redoScan u s.operations with
  | none => simp [DrawingState.redo, h] at hr
  | some p =>
    rcases p with ⟨ops2, r0⟩
    simp only [DrawingState.redo, h, Option.some.injEq] at hr
    obtain ⟨l1, op, l3, he, hu, hd, hbefore, hre, hops2⟩ :=
      redoScan_some_split u s.operations ops2 r0 h
    subst hr
    exact ⟨l1, op, l3, he, hu, hd, hbefore, hre,
      by simp [DrawingState.redo, h, hops2]⟩

/-- Witness for C2: after undoing C and B on the fixture, redo for `u`
restores B — the oldest undone entry. -/
theorem redoByUser_restores_oldest_witness :
    ∃ l1 op l3,
      (((fixS3.undo "u").1.undo "u").1).operations = l1 ++ op :: l3 ∧
      op.userId = "u" ∧ op.undone = true ∧
      (∀ op2 ∈ l1, ¬(op2.userId = "u" ∧ op2.undone = true)) ∧
      fixB = { op with undone := false } ∧
      ((((fixS3.undo "u").1.undo "u").1).redo "u").1 =
        { ((fixS3.undo "u").1.undo "u").1 with
            operations := l1 ++ fixB :: l3 } :=
  redoByUser_restores_oldest.1 ((fixS3.undo "u").1.undo "u").1 "u" fixB (by decide)

/-- **C3.** `globalUndo()` flips the most recently committed entry whose
`undone` flag is false, regardless of its author (every later entry is
already undone), and returns it — null when every entry is undone, leaving
the log unchanged; in the scenario where user X commits A and then user Y
commits B, `globalUndo()` flags B, not A. -/
theorem globalUndo_flags_most_recent_any_author :
    (∀ (s : DrawingState) (r : Operation), s.globalUndo.2 = some r →
      ∃ l1 op l3, s.operations = l1 ++ op :: l3 ∧
        op.undone = false ∧
        (∀ op2 ∈ l3, op2.undone = true) ∧
        r = { op with undone := true } ∧
        s.globalUndo.1 = { s with operations := l1 ++ r :: l3 }) ∧
    (∀ s : DrawingState, s.globalUndo.2 = none →
      s.globalUndo.1 = s ∧ ∀ op ∈ s.operations, op.undone = true) ∧
    fixSXY.globalUndo.2 = some { fixBY with undone := true } ∧
    fixSXY.globalUndo.2 ≠ some { fixAX with undone := true } := by
  refine ⟨?_, ?_, by decide, by decide⟩
  · intro s r hr
    cases h : globalUndoScan s.operations with
    | none => simp [DrawingState.globalUndo, h] at hr
    | some p =>
      rcases p with ⟨ops2, r0⟩
      simp only [DrawingState.globalUndo, h, Option.some.injEq] at hr
      obtain ⟨l1, op, l3, he, hd, hafter, hre, hops2⟩ :=
        globalUndoScan_some_split s.operations ops2 r0 h
      subst hr
      exact ⟨l1, op, l3, he, hd, hafter, hre,
        by simp [DrawingState.globalUndo, h, hops2]⟩
  · intro s hn
    cases h : globalUndoScan s.operations with
    | none =>
      exact ⟨by simp [DrawingState.globalUndo, h],
        (globalUndoScan_eq_none_iff s.operations).mp h⟩
    | some p =>
      rcases p with ⟨ops2, r0⟩
      simp [DrawingState.globalUndo, h] at hn

/-- Witness for C3 at the two-author fixture: the split around B. -/
theorem globalUndo_flags_most_recent_any_author_witness :
    ∃ l1 op l3, fixSXY.operations = l1 ++ op :: l3 ∧
      op.undone = false ∧
      (∀ op2 ∈ l3, op2.undone = true) ∧
      ({ fixBY with undone := true } : Operation) = { op with undone := true } ∧
      fixSXY.globalUndo.1 =
        { fixSXY with operations := l1 ++ { fixBY with undone := true } :: l3 } :=
  globalUndo_flags_most_recent_any_author.1 fixSXY { fixBY with undone := true }
    (by decide)

/-! ## The append cursor invariant -/

/-- Slicing a list to its own length keeps it whole. -/
theorem jsSliceEnd_length_self (l : List α) : jsSliceEnd l (l.length : Int) = l := by
  simp [jsSliceEnd]

/-- `undo` never changes the number of operations or the cursor. -/
theorem undo_length_currentIndex (s : DrawingState) (u : String) :
    (s.undo u).1.operations.length = s.operations.length ∧
    (s.undo u).1.currentIndex = s.currentIndex := by
  cases h : undoScan u s.operations with
  | none => simp [DrawingState.undo, h]
  | some p =>
    rcases p with ⟨ops2, r⟩
    obtain ⟨l1, op, l3, he, -, -, -, -, hops2⟩ :=
      undoScan_some_split u s.operations ops2 r h
    constructor
    · simp only [DrawingState.undo, h]
      rw [hops2, he]; simp
    · simp [DrawingState.undo, h]

/-- `redo` never changes the number of operations or the cursor. -/
theorem redo_length_currentIndex (s : DrawingState) (u : String) :
    (s.redo u).1.operations.length = s.operations.length ∧
    (s.redo u).1.currentIndex = s.currentIndex := by
  cases h : redoScan u s.operations with
  | none => simp [DrawingState.redo, h]
  | some p =>
    rcases p with ⟨ops2, r⟩
    obtain ⟨l1, op, l3, he, -, -, -, -, hops2⟩ :=
      redoScan_some_split u s.operations ops2 r h
    constructor
    · simp only [DrawingState.redo, h]
      rw [hops2, he]; simp
    · simp [DrawingState.redo, h]

/-- `globalUndo` never changes the number of operations or the cursor. -/
theorem globalUndo_length_currentIndex (s : DrawingState) :
    s.globalUndo.1.operations.length = s.operations.length ∧
    s.globalUndo.1.currentIndex = s.currentIndex := by
  cases h : globalUndoScan s.operations with
  | none => simp [DrawingState.globalUndo, h]
  | some p =>
    rcases p with ⟨ops2, r⟩
    obtain ⟨l1, op, l3, he, -, -, -, hops2⟩ :=
      globalUndoScan_some_split s.operations ops2 r h
    constructor
    · simp only [DrawingState.globalUndo, h]
      rw [hops2, he]; simp
    · simp [DrawingState.globalUndo, h]

/-- `globalRedo` never changes the number of operations or the cursor. -/
theorem globalRedo_length_currentIndex (s : DrawingState) :
    s.globalRedo.1.operations.length = s.operations.length ∧
    s.globalRedo.1.currentIndex = s.currentIndex := by
  cases h : globalRedoScan s.operations with
  | none => simp [DrawingState.globalRedo, h]
  | some p =>
    rcases p with ⟨ops2, r⟩
    obtain ⟨l1, op, l3, he, -, -, -, hops2⟩ :=
      globalRedoScan_some_split s.operations ops2 r h
    constructor
    · simp only [DrawingState.globalRedo, h]
      rw [hops2, he]; simp
    · simp [DrawingState.globalRedo, h]

/-- In every state reachable through the `DrawingState` methods, the append
cursor sits exactly at the end of the operation sequence. -/
theorem DSReachable.currentIndex_eq {s : DrawingState} (h : DSReachable s) :
    s.currentIndex = (s.operations.length : Int) - 1 := by
  induction h with
  | init roomId => simp
  | @addOperation s op h ih =>
    have hlen : s.currentIndex + 1 = (s.operations.length : Int) := by omega
    simp only [DrawingState.addOperation, hlen, jsSliceEnd_length_self,
      List.length_append, List.length_cons, List.length_nil]
    push_cast
    omega
  | @undo s u h ih =>
    obtain ⟨h1, h2⟩ := undo_length_currentIndex s u
    rw [h1, h2, ih]
  | @redo s u h ih =>
    obtain ⟨h1, h2⟩ := redo_length_currentIndex s u
    rw [h1, h2, ih]
  | @globalUndo s h ih =>
    obtain ⟨h1, h2⟩ := globalUndo_length_currentIndex s
    rw [h1, h2, ih]
  | @globalRedo s h ih =>
    obtain ⟨h1, h2⟩ := globalRedo_length_currentIndex s
    rw [h1, h2, ih]
  | @clear s h ih => simp [DrawingState.clear]

/-- **C10.** In every state reachable by any sequence of `addOperation`,
`undo`, `redo`, `globalUndo`, `globalRedo` and `clear` calls, the append
cursor `currentIndex` equals `operations.length - 1`; hence the slice to
`currentIndex + 1` at the start of `addOperation` removes nothing (a commit
is a pure append), and `getActiveOperations()` is exactly the whole sequence
filtered by `undone = false`. -/
theorem currentIndex_tracks_length (s : DrawingState) (h : DSReachable s) :
    s.currentIndex = (s.operations.length : Int) - 1 ∧
    jsSliceEnd s.operations (s.currentIndex + 1) = s.operations ∧
    (∀ op, ((s.addOperation op).1).operations =
      s.operations ++ [{ op with undone := false }]) ∧
    s.getActiveOperations = s.operations.filter (fun op => op.undone = false) := by
  have hci := h.currentIndex_eq
  have hslice : jsSliceEnd s.operations (s.currentIndex + 1) = s.operations := by
    have h1 : s.currentIndex + 1 = (s.operations.length : Int) := by omega
    rw [h1, jsSliceEnd_length_self]
  exact ⟨hci, hslice,
    fun op => by simp [DrawingState.addOperation, hslice],
    by simp [DrawingState.getActiveOperations, hslice]⟩

/-- Witness for C10 at the reachable three-operation fixture. -/
theorem currentIndex_tracks_length_witness :
    fixS3.currentIndex = (fixS3.operations.length : Int) - 1 ∧
    jsSliceEnd fixS3.operations (fixS3.currentIndex + 1) = fixS3.operations ∧
    (∀ op, ((fixS3.addOperation op).1).operations =
      fixS3.operations ++ [{ op with undone := false }]) ∧
    fixS3.getActiveOperations =
      fixS3.operations.filter (fun op => op.undone = false) :=
  currentIndex_tracks_length fixS3
    (DSReachable.addOperation fixC
      (DSReachable.addOperation fixB
        (DSReachable.addOperation fixA (DSReachable.init "R"))))

/-! ## The commit rule (C4) -/

/-- A positional update leaves the sequence of ids untouched. -/
theorem updateFirstById_map_id (tid : String) (f : Operation → Operation)
    (hf : ∀ op, (f op).id = op.id) (l : List Operation) :
    (updateFirstById tid f l).map Operation.id = l.map Operation.id := by
  induction l with
  | nil => rfl
  | cons op rest ih =>
    rw [updateFirstById]
    by_cases hc : op.id = tid
    · simp [if_pos hc, hf]
    · simp [if_neg hc, ih]

/-- The `move` statement leaves the sequence of ids untouched. -/
theorem moveStep_map_id (t : String) (d : OpData) (s1 : DrawingState) :
    (moveStep t d s1).operations.map Operation.id =
      s1.operations.map Operation.id := by
  unfold moveStep
  split
  · split
    · apply updateFirstById_map_id
      intro op; rfl
    · rfl
  · rfl

/-- The `resize` statement leaves the sequence of ids untouched. -/
theorem resizeStep_map_id (t : String) (d : OpData) (s2 : DrawingState) :
    (resizeStep t d s2).operations.map Operation.id =
      s2.operations.map Operation.id := by
  unfold resizeStep
  split
  · split
    · apply updateFirstById_map_id
      intro op; rfl
    · rfl
  · rfl

/-- No stored operation is a `draw-incremental` segment marked non-final. -/
def noPartialIncremental (l : List Operation) : Prop :=
  ∀ op ∈ l, op.type = "draw-incremental" → op.data.isComplete = true

/-- A slice is a subset of the original list. -/
theorem jsSliceEnd_subset (l : List α) (e : Int) : jsSliceEnd l e ⊆ l := by
  unfold jsSliceEnd
  split
  · exact List.take_subset _ _
  · exact List.take_subset _ _

/-- A positional update that keeps `type` and `isComplete` keeps the
no-partial-incremental property. -/
theorem updateFirstById_noPartial (tid : String) (f : Operation → Operation)
    (hf : ∀ op, (f op).type = op.type ∧ (f op).data.isComplete = op.data.isComplete)
    (l : List Operation) (hl : noPartialIncremental l) :
    noPartialIncremental (updateFirstById tid f l) := by
  induction l with
  | nil => intro op hm; cases hm
  | cons op rest ih =>
    rw [updateFirstById]
    have hrest : noPartialIncremental rest := fun x hx => hl x (List.mem_cons_of_mem _ hx)
    by_cases hc : op.id = tid
    · rw [if_pos hc]
      intro x hx
      rcases List.mem_cons.mp hx with h1 | h2
      · subst h1
        intro ht
        rw [(hf op).2]
        exact hl op (List.mem_cons_self op rest) (by rw [← (hf op).1]; exact ht)
      · exact hl x (List.mem_cons_of_mem _ h2)
    · rw [if_neg hc]
      intro x hx
      rcases List.mem_cons.mp hx with h1 | h2
      · subst h1; exact hl x (List.mem_cons_self x rest)
      · exact ih hrest x h2

/-- The `move` statement keeps the no-partial-incremental property. -/
theorem moveStep_noPartial (t : String) (d : OpData) (s1 : DrawingState)
    (hl : noPartialIncremental s1.operations) :
    noPartialIncremental (moveStep t d s1).operations := by
  unfold moveStep
  split
  · split
    · apply updateFirstById_noPartial
      · intro op; exact ⟨rfl, rfl⟩
      · exact hl
    · exact hl
  · exact hl

/-- The `resize` statement keeps the no-partial-incremental property. -/
theorem resizeStep_noPartial (t : String) (d : OpData) (s2 : DrawingState)
    (hl : noPartialIncremental s2.operations) :
    noPartialIncremental (resizeStep t d s2).operations := by
  unfold resizeStep
  split
  · split
    · apply updateFirstById_noPartial
      · intro op; exact ⟨rfl, rfl⟩
      · exact hl
    · exact hl
  · exact hl

/-- Flipping one entry's `undone` flag keeps the no-partial-incremental
property of a split list. -/
theorem noPartial_flip (l1 l3 : List Operation) (op : Operation) (b : Bool)
    (hl : noPartialIncremental (l1 ++ op :: l3)) :
    noPartialIncremental (l1 ++ { op with undone := b } :: l3) := by
  intro x hx
  rcases List.mem_append.mp hx with h1 | h2
  · exact hl x (List.mem_append.mpr (Or.inl h1))
  · rcases List.mem_cons.mp h2 with h3 | h4
    · subst h3
      exact hl op (List.mem_append.mpr (Or.inr (List.mem_cons_self op l3)))
    · exact hl x (List.mem_append.mpr (Or.inr (List.mem_cons_of_mem _ h4)))

/-- `undo` keeps the no-partial-incremental property. -/
theorem undo_noPartial (s : DrawingState) (u : String)
    (hl : noPartialIncremental s.operations) :
    noPartialIncremental (s.undo u).1.operations := by
  cases h : undoScan u s.operations with
  | none => simpa [DrawingState.undo, h] using hl
  | some p =>
    rcases p with ⟨ops2, r⟩
    obtain ⟨l1, op, l3, he, -, -, -, hre, hops2⟩ :=
      undoScan_some_split u s.operations ops2 r h
    simp only [DrawingState.undo, h]
    rw [hops2, hre]
    exact noPartial_flip l1 l3 op true (he ▸ hl)

/-- `redo` keeps the no-partial-incremental property. -/
theorem redo_noPartial (s : DrawingState) (u : String)
    (hl : noPartialIncremental s.operations) :
    noPartialIncremental (s.redo u).1.operations := by
  cases h : redoScan u s.operations with
  | none => simpa [DrawingState.redo, h] using hl
  | some p =>
    rcases p with ⟨ops2, r⟩
    obtain ⟨l1, op, l3, he, -, -, -, hre, hops2⟩ :=
      redoScan_some_split u s.operations ops2 r h
    simp only [DrawingState.redo, h]
    rw [hops2, hre]
    exact noPartial_flip l1 l3 op false (he ▸ hl)

/-- `globalUndo` keeps the no-partial-incremental property. -/
theorem globalUndo_noPartial (s : DrawingState)
    (hl : noPartialIncremental s.operations) :
    noPartialIncremental s.globalUndo.1.operations := by
  cases h : globalUndoScan s.operations with
  | none => simpa [DrawingState.globalUndo, h] using hl
  | some p =>
    rcases p with ⟨ops2, r⟩
    obtain ⟨l1, op, l3, he, -, -, hre, hops2⟩ :=
      globalUndoScan_some_split s.operations ops2 r h
    simp only [DrawingState.globalUndo, h]
    rw [hops2, hre]
    exact noPartial_flip l1 l3 op true (he ▸ hl)

/-- `globalRedo` keeps the no-partial-incremental property. -/
theorem globalRedo_noPartial (s : DrawingState)
    (hl : noPartialIncremental s.operations) :
    noPartialIncremental s.globalRedo.1.operations := by
  cases h : globalRedoScan s.operations with
  | none => simpa [DrawingState.globalRedo, h] using hl
  | some p =>
    rcases p with ⟨ops2, r⟩
    obtain ⟨l1, op, l3, he, -, -, hre, hops2⟩ :=
      globalRedoScan_some_split s.operations ops2 r h
    simp only [DrawingState.globalRedo, h]
    rw [hops2, hre]
    exact noPartial_flip l1 l3 op false (he ▸ hl)

/-- Every state the server handlers can reach keeps the
no-partial-incremental property of its log. -/
theorem EventReachable.noPartial {s : DrawingState} (h : EventReachable s) :
    noPartialIncremental s.operations := by
  induction h with
  | init roomId => intro op hm; cases hm
  | @drawingEvent s user fid now t d h ih =>
    unfold handleDrawingEvent
    apply resizeStep_noPartial
    apply moveStep_noPartial
    by_cases hcc : commitCond t d
    · rw [if_pos hcc]
      intro x hx
      simp only [DrawingState.addOperation] at hx
      rcases List.mem_append.mp hx with h1 | h2
      · exact ih x (jsSliceEnd_subset _ _ h1)
      · rcases List.mem_cons.mp h2 with h3 | h4
        · subst h3
          intro ht
          have ht2 : t = "draw-incremental" := ht
          show d.isComplete = true
          rcases hcc with h5 | h5 | h5 | h5 | h5
          · rw [h5] at ht2; exact absurd ht2 (by decide)
          · rw [h5] at ht2; exact absurd ht2 (by decide)
          · rw [h5] at ht2; exact absurd ht2 (by decide)
          · rw [h5] at ht2; exact absurd ht2 (by decide)
          · exact h5
        · cases h4
    · rw [if_neg hcc]; exact ih
  | @undoRequest s u h ih => exact undo_noPartial s u ih
  | @redoRequest s u h ih => exact redo_noPartial s u ih
  | @adminUndo s h ih => exact globalUndo_noPartial s ih
  | @adminRedo s h ih => exact globalRedo_noPartial s ih
  | @clearCanvas s u h ih =>
    intro x hx
    simp only [clearByUser, List.mem_map] at hx
    obtain ⟨op, hmem, hxeq⟩ := hx
    by_cases hc : op.userId = u
    · rw [if_pos hc] at hxeq
      subst hxeq
      exact ih op hmem
    · rw [if_neg hc] at hxeq
      subst hxeq
      exact ih op hmem
  | @adminClearAll s h ih => intro op hm; cases hm

/-- Fixture: a connected user. -/
def fixUser : User :=
  { id := "u", name := "ann", color := "#FF6B6B", socketId := "sock-1",
    isAdmin := true, joinedAt := 0 }

/-- **C4.** A `drawing-event` appends an operation to the room's log exactly
when its type is `draw`, `shape`, `text` or `image`, or its payload is marked
final (`isComplete`); consequently, in every server-reachable state the
history handed to a newly joined client contains no `draw-incremental`
segment marked non-final. -/
theorem drawing_event_commit_rule (s : DrawingState) (user : User)
    (fid : String) (now : Nat) (t : String) (d : OpData)
    (hci : s.currentIndex = (s.operations.length : Int) - 1) :
    ((commitCond t d →
        (handleDrawingEvent s user fid now t d).operations.map Operation.id =
          s.operations.map Operation.id ++ [fid]) ∧
      (¬commitCond t d →
        (handleDrawingEvent s user fid now t d).operations.map Operation.id =
          s.operations.map Operation.id)) ∧
    (∀ s2 : DrawingState, EventReachable s2 →
      ∀ op ∈ (s2.getOperationHistory).operations,
        ¬(op.type = "draw-incremental" ∧ op.data.isComplete = false)) := by
  have hslice : jsSliceEnd s.operations (s.currentIndex + 1) = s.operations := by
    have h1 : s.currentIndex + 1 = (s.operations.length : Int) := by omega
    rw [h1, jsSliceEnd_length_self]
  refine ⟨⟨?_, ?_⟩, ?_⟩
  · intro hcc
    unfold handleDrawingEvent
    rw [resizeStep_map_id, moveStep_map_id, if_pos hcc]
    simp [DrawingState.addOperation, hslice, eventOperation]
  · intro hcc
    unfold handleDrawingEvent
    rw [resizeStep_map_id, moveStep_map_id, if_neg hcc]
  · intro s2 hreach op hm hcontra
    have h3 := hreach.noPartial op hm hcontra.1
    rw [hcontra.2] at h3
    exact absurd h3 (by decide)

/-- Witness for C4: on the reachable three-operation fixture, committing a
`draw` appends it, while a non-final `draw-incremental` does not. -/
theorem drawing_event_commit_rule_witness :
    (commitCond "draw" {} →
      (handleDrawingEvent fixS3 fixUser "F" 7 "draw" {}).operations.map Operation.id =
        fixS3.operations.map Operation.id ++ ["F"]) ∧
    (¬commitCond "draw" ({} : OpData) →
      (handleDrawingEvent fixS3 fixUser "F" 7 "draw" {}).operations.map Operation.id =
        fixS3.operations.map Operation.id) :=
  (drawing_event_commit_rule fixS3 fixUser "F" 7 "draw" {} (by decide)).1

/-- **C5.** The `clear-canvas` action flags exactly the acting user's entries
as undone — every entry by any other user keeps its flag, payload and
position, and nothing is removed — and the flagged entries stay in the
sequence, so a later `redoByUser(u)` can restore one; the admin
`clearAll` instead empties the sequence, after which every undo/redo
variant returns null. -/
theorem clearByUser_flags_only_own_entries (s : DrawingState) (u : String) :
    (∀ (i : Nat) (op : Operation), s.operations[i]? = some op →
      (clearByUser s u).operations[i]? =
        some (if op.userId = u then { op with undone := true } else op)) ∧
    (clearByUser s u).operations.length = s.operations.length ∧
    (clearByUser s u).currentIndex = s.currentIndex ∧
    ((∃ op ∈ s.operations, op.userId = u) →
      ∃ r, ((clearByUser s u).redo u).2 = some r ∧ r.userId = u) ∧
    (s.clear.operations = [] ∧
      (s.clear.undo u).2 = none ∧ (s.clear.redo u).2 = none ∧
      s.clear.globalUndo.2 = none ∧ s.clear.globalRedo.2 = none) := by
  refine ⟨?_, by simp [clearByUser], rfl, ?_, rfl, ?_, ?_, ?_, ?_⟩
  · intro i op h
    simp [clearByUser, List.getElem?_map, h]
  · rintro ⟨op, hm, hu⟩
    cases h : redoScan u (clearByUser s u).operations with
    | none =>
      exfalso
      have hmem : ({ op with undone := true } : Operation) ∈ (clearByUser s u).operations := by
        have heq : (fun x : Operation =>
            if x.userId = u then { x with undone := true } else x) op =
            { op with undone := true } := by simp [hu]
        exact heq ▸ List.mem_map_of_mem _ hm
      exact (redoScan_eq_none_iff u _).mp h _ hmem ⟨hu, rfl⟩
    | some p =>
      rcases p with ⟨ops2, r⟩
      obtain ⟨l1, op2, l3, he, hu2, hd2, -, hre, -⟩ :=
        redoScan_some_split u _ ops2 r h
      refine ⟨r, by simp [DrawingState.redo, h], ?_⟩
      rw [hre]
      exact hu2
  · simp [DrawingState.undo, DrawingState.clear, undoScan]
  · simp [DrawingState.redo, DrawingState.clear, redoScan]
  · simp [DrawingState.globalUndo, DrawingState.clear, globalUndoScan]
  · simp [DrawingState.globalRedo, DrawingState.clear, globalRedoScan]

/-- Witness for C5: on the fixture, clear-mine leaves the log length intact
and a redo for `u` still succeeds. -/
theorem clearByUser_flags_only_own_entries_witness :
    ∃ r, ((clearByUser fixS3 "u").redo "u").2 = some r ∧ r.userId = "u" :=
  (clearByUser_flags_only_own_entries fixS3 "u").2.2.2.1
    ⟨fixA, by decide, rfl⟩

/-! ## Admin succession (C6) -/

/-- Reading back the key just written returns the written value. -/
theorem mapGet_mapSet_self (k : String) (v : β) (l : List (String × β)) :
    mapGet (mapSet k v l) k = some v := by
  induction l with
  | nil => simp [mapSet, mapGet]
  | cons p rest ih =>
    rcases p with ⟨k0, v0⟩
    rw [mapSet]
    by_cases hc : k0 = k
    · rw [if_pos hc]
      simp [mapGet]
    · rw [if_neg hc]
      simpa [mapGet, hc] using ih

/-- Deleting a key yields a sublist (no reordering, nothing else removed). -/
theorem mapDelete_sublist (k : String) (l : List (String × β)) :
    List.Sublist (mapDelete k l) l := by
  induction l with
  | nil => simp [mapDelete]
  | cons p rest ih =>
    rcases p with ⟨k0, v0⟩
    rw [mapDelete]
    by_cases hc : k0 = k
    · rw [if_pos hc]
      exact List.sublist_cons_self _ _
    · rw [if_neg hc]
      exact ih.cons₂ _

/-- **C6.** When the current admin is removed from a room that keeps at least
one user, exactly one remaining user is promoted: the first entry of the
remaining map, which — the map being ordered by join time — is the remaining
user with the lowest join order; the room's `adminId` and that user's
`isAdmin` flag are both updated, and every other remaining entry is kept
verbatim. -/
theorem admin_succession (m : RoomManager) (roomId uid : String) (room : Room)
    (hroom : mapGet m.rooms roomId = some room)
    (hadmin : room.adminId = some uid)
    (hids : ∀ p ∈ room.users, p.2.id = p.1)
    (hsorted : room.users.Pairwise (fun a b => a.2.joinedAt < b.2.joinedAt))
    (hrem : mapDelete uid room.users ≠ []) :
    ∃ (room2 : Room) (w : User) (rest : List (String × User)),
      mapGet ((m.removeUser roomId uid).1).rooms roomId = some room2 ∧
      mapDelete uid room.users = (w.id, w) :: rest ∧
      (∀ p ∈ rest, w.joinedAt < p.2.joinedAt) ∧
      room2.adminId = some w.id ∧
      room2.users = (w.id, { w with isAdmin := true }) :: rest := by
  cases husers : mapDelete uid room.users with
  | nil => exact absurd husers hrem
  | cons p rest =>
    rcases p with ⟨k0, w⟩
    have hpmem : (k0, w) ∈ room.users := by
      have := (mapDelete_sublist uid room.users).subset
      rw [husers] at this
      exact this (List.mem_cons_self _ _)
    have hk0 : w.id = k0 := hids (k0, w) hpmem
    have hpair : ((k0, w) :: rest).Pairwise
        (fun a b : String × User => a.2.joinedAt < b.2.joinedAt) := by
      rw [← husers]
      exact hsorted.sublist (mapDelete_sublist uid room.users)
    have hrest : ∀ p ∈ rest, w.joinedAt < p.2.joinedAt := by
      intro p hp
      exact (List.pairwise_cons.mp hpair).1 p hp
    refine ⟨{ room with
        users := (w.id, { w with isAdmin := true }) :: rest,
        adminId := some w.id }, w, rest, ?_, by rw [hk0], hrest, rfl, rfl⟩
    simp only [RoomManager.removeUser, hroom, husers, hadmin]
    rw [← hk0]
    simp only [mapSet, eq_self_iff_true, if_true, List.length_cons]
    rw [if_neg (by simp)]
    exact mapGet_mapSet_self roomId _ m.rooms

/-- Fixture: a registry where users a, b, c joined room R in that order
(a is admin). -/
def fixM3 : RoomManager :=
  ((((⟨[]⟩ : RoomManager).addUser "R" "a" "ann" "s1" 0 0).1.addUser
    "R" "b" "bob" "s2" 1 0).1.addUser "R" "c" "cyd" "s3" 2 0).1

/-- Fixture: the stored room R of `fixM3`. -/
def fixRoom3 : Room :=
  (mapGet fixM3.rooms "R").getD
    { id := "", users := [], drawingState := {}, adminId := none, createdAt := 0 }

/-- Witness for C6: removing admin a from the three-user fixture promotes b,
the earliest remaining joiner. -/
theorem admin_succession_witness :
    ∃ (room2 : Room) (w : User) (rest : List (String × User)),
      mapGet ((fixM3.removeUser "R" "a").1).rooms "R" = some room2 ∧
      mapDelete "a" fixRoom3.users = (w.id, w) :: rest ∧
      (∀ p ∈ rest, w.joinedAt < p.2.joinedAt) ∧
      room2.adminId = some w.id ∧
      room2.users = (w.id, { w with isAdmin := true }) :: rest :=
  admin_succession fixM3 "R" "a" fixRoom3 (by decide) (by decide) (by decide)
    (by decide) (by decide)

/-! ## Room teardown on last disconnect (C7) -/

/-- Fixture: a registry whose only room R holds the single user u1. -/
def fixM1 : RoomManager :=
  ((⟨[]⟩ : RoomManager).addUser "R" "u1" "ann" "s1" 0 0).1

/-- Fixture: the user record `addUser` produced for u1. -/
def fixU1 : User :=
  ((⟨[]⟩ : RoomManager).addUser "R" "u1" "ann" "s1" 0 0).2

/-- **C7 (counter-evidence).** `removeUser` itself does discard the room when
its last user leaves — but the full `disconnect` handling then calls
`getRoom(currentRoom)`, which lazily re-creates the room, so after the
complete handler the registry still holds an (empty) entry for the roomId. -/
theorem disconnect_recreates_empty_room :
    (fixM1.removeUser "R" "u1").1.rooms = [] ∧
    mapGet (handleDisconnect fixM1 "R" fixU1 5).rooms "R" =
      some { id := "R", users := [], drawingState := { roomId := "R" },
             adminId := none, createdAt := 5 } ∧
    (handleDisconnect fixM1 "R" fixU1 5).rooms ≠ [] := by
  refine ⟨by decide, by decide, by decide⟩

/-! ## Admin transfer (C8) -/

/-- Fixture: a registry whose room R holds admin a and member b. -/
def fixM2 : RoomManager :=
  (((⟨[]⟩ : RoomManager).addUser "R" "a" "ann" "s1" 0 0).1.addUser
    "R" "b" "bob" "s2" 1 0).1

/-- Fixture: the admin user a of `fixM2`. -/
def fixAdminA : User :=
  ((⟨[]⟩ : RoomManager).addUser "R" "a" "ann" "s1" 0 0).2

/-- Fixture: the non-admin user b of `fixM2`. -/
def fixUserB : User :=
  (((⟨[]⟩ : RoomManager).addUser "R" "a" "ann" "s1" 0 0).1.addUser
    "R" "b" "bob" "s2" 1 0).2

/-- **C8 (counter-evidence).** The `admin-transfer` handler can never mutate
the registry: rooms.js defines no `setAdmin`, so the call throws a
`TypeError` that the handler swallows.  In particular, when admin a asks to
transfer to b, nobody's `isAdmin` flag changes and no `{oldAdmin, newAdmin}`
result is produced. -/
theorem admin_transfer_never_mutates :
    (∀ (m : RoomManager) (roomId : String) (cu : User) (target : String),
      (handleAdminTransfer m roomId cu target).1 = m) ∧
    (∀ (m : RoomManager) (roomId target : String),
      m.setAdmin roomId target =
        Except.error "TypeError: roomManager.setAdmin is not a function") ∧
    handleAdminTransfer fixM2 "R" fixAdminA "b" = (fixM2, none) ∧
    fixAdminA.isAdmin = true ∧
    (mapGet fixM2.rooms "R").map (fun room => mapGet room.users "b") =
      some (some fixUserB) ∧
    fixUserB.isAdmin = false := by
  refine ⟨?_, fun m roomId target => rfl, by decide, by decide, by decide, by decide⟩
  intro m roomId cu target
  unfold handleAdminTransfer
  split
  · rfl
  · rfl

/-! ## Client-side reconciliation (C9) -/

/-- The condition under which `CanvasManager.addOperation` falls through all
the early-return branches (clear, previews, move/resize positional updates,
incremental streaming) into the completed-operation reconciliation section. -/
def reachesCompleted (operation : Operation) : Prop :=
  operation.type ≠ "clear" ∧ operation.type ≠ "shape-preview" ∧
  operation.type ≠ "text-preview" ∧ operation.type ≠ "move-preview" ∧
  operation.type ≠ "draw-incremental" ∧
  ((operation.type = "move" ∨ operation.type = "resize") →
    operation.data.operationId = none)

instance (operation : Operation) : Decidable (reachesCompleted operation) := by
  unfold reachesCompleted; infer_instance

/-- On the fall-through condition, `addOperation` is exactly the
completed-operation reconciliation. -/
theorem clientAddOperation_completed (ops : List Operation)
    (operation : Operation) (h : reachesCompleted operation) :
    clientAddOperation ops operation = clientCompleted ops operation := by
  obtain ⟨h1, h2, h3, h4, h5, h6⟩ := h
  unfold clientAddOperation
  rw [if_neg h1, if_neg (by tauto)]
  by_cases hm : operation.type = "move"
  · rw [h6 (Or.inl hm), hm]
    rfl
  · by_cases hr : operation.type = "resize"
    · rw [h6 (Or.inr hr), hr]
      rfl
    · rw [show (operation.type == "move") = false by
          exact beq_eq_false_iff_ne.mpr hm,
        show (operation.type == "resize") = false by
          exact beq_eq_false_iff_ne.mpr hr]
      rw [if_neg h5]

/-- **C9.** For an incoming committed operation on the client reconciler:
a payload `tempId` matching the id of a still-pending placeholder replaces
that placeholder in place, exactly once (the history keeps its length and
nothing is appended); when no placeholder matches and an entry with the same
server id is already present, the redelivered broadcast is dropped and the
history is unchanged. -/
theorem client_reconciles_tempId_and_dedups (ops : List Operation)
    (operation : Operation) (h : reachesCompleted operation) :
    (∀ t i, operation.data.tempId = some t →
      ops.findIdx? (fun op => op.id = t) = some i →
      clientAddOperation ops operation = ops.set i operation ∧
      (ops.set i operation).length = ops.length) ∧
    ((∀ t, operation.data.tempId = some t →
        ops.findIdx? (fun op => op.id = t) = none) →
      (∃ op ∈ ops, op.id = operation.id) →
      clientAddOperation ops operation = ops) ∧
    (operation.data.tempId = none →
      (∃ op ∈ ops, op.id = operation.id) →
      clientAddOperation ops operation = ops) := by
  rw [clientAddOperation_completed ops operation h]
  unfold clientCompleted
  refine ⟨?_, ?_, ?_⟩
  · intro t i ht hi
    refine ⟨?_, List.length_set ops i operation⟩
    rw [ht]
    simp only [hi]
  · intro hnone hex
    have hany : ops.any (fun op => op.id = operation.id) = true := by
      obtain ⟨op, hm, hid⟩ := hex
      simp only [List.any_eq_true, decide_eq_true_eq]
      exact ⟨op, hm, hid⟩
    cases hti : operation.data.tempId with
    | none => simp [hany]
    | some t =>
      simp only [hnone t hti]
      simp [hany]
  · intro ht hex
    have hany : ops.any (fun op => op.id = operation.id) = true := by
      obtain ⟨op, hm, hid⟩ := hex
      simp only [List.any_eq_true, decide_eq_true_eq]
      exact ⟨op, hm, hid⟩
    rw [ht]
    simp [hany]

/-- Fixture: the still-pending optimistic placeholder, stored under its
client-generated `tempId`. -/
def fixPending : Operation := { id := "tmp1", type := "draw", userId := "u" }

/-- Fixture: the server-confirmed broadcast of the same edit, carrying the
client's `tempId` in its payload. -/
def fixConfirmed : Operation :=
  { id := "srv1", type := "draw", userId := "u",
    data := { tempId := some "tmp1" } }

/-- Witness for C9: the confirmation replaces the placeholder in place, and
redelivering it afterwards is a no-op. -/
theorem client_reconciles_tempId_and_dedups_witness :
    (clientAddOperation [fixPending] fixConfirmed =
        [fixPending].set 0 fixConfirmed ∧
      ([fixPending].set 0 fixConfirmed).length = [fixPending].length) ∧
    clientAddOperation [fixConfirmed] fixConfirmed = [fixConfirmed] :=
  ⟨(client_reconciles_tempId_and_dedups [fixPending] fixConfirmed
      (by decide)).1 "tmp1" 0 rfl (by decide),
    (client_reconciles_tempId_and_dedups [fixConfirmed] fixConfirmed
      (by decide)).2.1
      (fun t ht => by
        have h2 : "tmp1" = t := Option.some.inj ht
        subst h2
        decide)
      ⟨fixConfirmed, by decide, rfl⟩⟩
